import Mathlib

/-!
Verification of the schema-reconciliation / lossless-merge engine of the
Scrapping repository.  The Python sources `restore_excel_to_db.py` and
`mergexcel.py` are shallowly embedded below: pandas dataframes become lists
of association-list rows, cells become `Option String` (with `none`
standing for NaN / null), and the pipeline stages of `map_columns`,
`insert_rows_safe` and `merge_and_save_xlsx` become pure Lean functions.
String handling (ASCII scope) mirrors Python's `str.strip`, `str.lower`,
`str.replace` and the regular-expression filters used by the code.
-/

namespace Scrapping

/-- Python whitespace characters (`str.strip` default set, ASCII scope). -/
def pyIsSpace (c : Char) : Bool :=
  c = ' ' || c = '\t' || c = '\n' || c = '\x0d' || c = '\x0b' || c = '\x0c'

/-- Python `str.strip` on a character list: drop whitespace from both ends. -/
def pyStripList (l : List Char) : List Char :=
  ((l.dropWhile pyIsSpace).reverse.dropWhile pyIsSpace).reverse

/-- Python `str.strip`. -/
def pyStrip (s : String) : String := ⟨pyStripList s.data⟩

/-- Python `str.lower` on one character (ASCII scope, as used by the column names). -/
def pyLowerChar (c : Char) : Char :=
  if 'A' ≤ c ∧ c ≤ 'Z' then Char.ofNat (c.toNat + 32) else c

/-- Python `str.lower`. -/
def pyLower (s : String) : String := ⟨s.data.map pyLowerChar⟩

/-- The `.replace(" ", "_")` step of `normalize`. -/
def spaceToUnderscore (c : Char) : Char := if c = ' ' then '_' else c

/-- Characters kept by the regex `[^a-z0-9_]` deletion in `normalize`. -/
def allowedChar (c : Char) : Bool :=
  (decide ('a' ≤ c) && decide (c ≤ 'z')) ||
  (decide ('0' ≤ c) && decide (c ≤ '9')) || (c == '_')

/-- Embeds `restore_excel_to_db.normalize`:
`re.sub(r"[^a-z0-9_]", "", str(col).strip().lower().replace(" ", "_"))`. -/
def normalize (s : String) : String :=
  ⟨(((pyStripList s.data).map pyLowerChar).map spaceToUnderscore).filter allowedChar⟩

/-- Python's `\d` (ASCII scope): the digit characters kept by `clean_digits`. -/
def isPyDigit (c : Char) : Bool := decide ('0' ≤ c) && decide (c ≤ '9')

/-- Embeds `restore_excel_to_db.clean_digits`: `""` for null/NaN, else strip
non-digits (`re.sub(r"\D", "", str(val))`) and truncate to `limit`. -/
def clean_digits (val : Option String) (limit : Nat) : String :=
  match val with
  | none => ""
  | some s => ⟨(s.data.filter isPyDigit).take limit⟩

/-- Embeds `restore_excel_to_db.truncate`: `""` for null/NaN, else
`str(val).strip()[:limit]`. -/
def truncate (val : Option String) (limit : Nat) : String :=
  match val with
  | none => ""
  | some s => ⟨(pyStripList s.data).take limit⟩

/-- The literal tokens replaced by `''` in `mergexcel.read_xlsx_from_s3`
(line 263): `df[col].replace(['nan', 'None', 'none', 'NULL', 'null', 'NaT'], '')`. -/
def NA_TOKENS : List String := ["nan", "None", "none", "NULL", "null", "NaT"]

/-- The whole-cell token replacement applied to every column at the end of
`mergexcel.read_xlsx_from_s3` (pandas `Series.replace` with a list matches
the full cell value exactly). -/
def replace_na_tokens (s : String) : String := if s ∈ NA_TOKENS then "" else s

/-! ## Dataframe model

`load_excel_from_s3` reads with `dtype=str` and normalizes the column
names, so a dataframe is a list of (normalized) column names together with
rows mapping column names to cells; a cell is `Option String` with `none`
for NaN (missing cell). -/

/-- A dataframe row: association list from column name to cell value. -/
def Row : Type := List (String × Option String)

/-- A dataframe as handed to `map_columns`: its column list and its rows. -/
structure Df where
  cols : List String
  rows : List Row

/-- Cell access `df[src]` evaluated at one row: look the column up in the row. -/
def getCell (row : Row) (c : String) : Option String :=
  (List.lookup c row).getD none

/-- Embeds `restore_excel_to_db.COLUMN_PRIORITY` (verbatim alias table). -/
def COLUMN_PRIORITY : List (String × List String) :=
  [ ("bank_name",   ["bank_name", "bank", "bankname"]),
    ("branch_name", ["branch_name", "branchname", "branch", "branchnm"]),
    ("ifsc_code",   ["ifsc_code", "ifsc", "ifscode"]),
    ("address",     ["address", "branchaddress"]),
    ("city1",       ["city1", "city_1", "city", "district", "place", "location", "town"]),
    ("city2",       ["city2", "city_2", "centre", "center"]),
    ("state",       ["state"]),
    ("std_code",    ["std_code", "stdcode", "std", "areacode"]),
    ("phone",       ["phone", "phone_no", "phoneno", "telephone", "contact"]) ]

/-- Alias list of one canonical field in `COLUMN_PRIORITY`. -/
def aliasesOf (target : String) : List String :=
  ((COLUMN_PRIORITY.lookup target).getD [])

/-- Embeds `restore_excel_to_db.LIMITS` (per-field truncation limits). -/
def LIMITS (field : String) : Nat :=
  if field = "bank_name" then 100
  else if field = "branch_name" then 100
  else if field = "ifsc_code" then 20
  else if field = "address" then 100
  else if field = "city1" then 50
  else if field = "city2" then 50
  else if field = "state" then 50
  else if field = "std_code" then 50
  else if field = "phone" then 20
  else 0

/-- The inner loop of `map_columns` (`for src in sources: if src in
df.columns: ... break`): first alias present among the dataframe columns. -/
def resolveSrc (cols : List String) (variants : List String) : Option String :=
  variants.find? (fun v => cols.contains v)

/-- A record while some fields may still be NaN/None (the `out` dataframe
of `map_columns` before the clean/truncate loop). -/
structure RawRec where
  bank_name   : Option String
  branch_name : Option String
  ifsc_code   : Option String
  address     : Option String
  city1       : Option String
  city2       : Option String
  state       : Option String
  std_code    : Option String
  phone       : Option String
deriving DecidableEq, Repr

/-- A fully cleaned record: every field a string (the `out` dataframe after
the clean/truncate loop; pandas cells holding strings are never NaN). -/
structure Rec where
  bank_name   : String
  branch_name : String
  ifsc_code   : String
  address     : String
  city1       : String
  city2       : String
  state       : String
  std_code    : String
  phone       : String
deriving DecidableEq, Repr

/-- One target column of the mapping loop of `map_columns` evaluated at one
row: value of the first alias column present, else None. -/
def mapField (cols : List String) (row : Row) (target : String) : Option String :=
  (resolveSrc cols (aliasesOf target)).bind (getCell row)

/-- The mapping loop of `map_columns` applied to one row. -/
def mapRow (cols : List String) (row : Row) : RawRec :=
  { bank_name   := mapField cols row "bank_name"
    branch_name := mapField cols row "branch_name"
    ifsc_code   := mapField cols row "ifsc_code"
    address     := mapField cols row "address"
    city1       := mapField cols row "city1"
    city2       := mapField cols row "city2"
    state       := mapField cols row "state"
    std_code    := mapField cols row "std_code"
    phone       := mapField cols row "phone" }

/-- The bank_name whole-column blankness test of `map_columns` (line 144):
`out["bank_name"].isna().all() or (out["bank_name"].fillna("").str.strip() == "").all()`. -/
def bankAllBlank (rs : List RawRec) : Bool :=
  rs.all (fun r => r.bank_name.isNone) ||
  rs.all (fun r => pyStrip (r.bank_name.getD "") = "")

/-- The clean/truncate loop of `map_columns`: `clean_digits` for
`phone`/`std_code`, `truncate` for the rest, with `LIMITS`. -/
def cleanRec (r : RawRec) : Rec :=
  { bank_name   := truncate r.bank_name (LIMITS "bank_name")
    branch_name := truncate r.branch_name (LIMITS "branch_name")
    ifsc_code   := truncate r.ifsc_code (LIMITS "ifsc_code")
    address     := truncate r.address (LIMITS "address")
    city1       := truncate r.city1 (LIMITS "city1")
    city2       := truncate r.city2 (LIMITS "city2")
    state       := truncate r.state (LIMITS "state")
    std_code    := clean_digits r.std_code (LIMITS "std_code")
    phone       := clean_digits r.phone (LIMITS "phone") }

/-- The "FIX MISSING BRANCH NAME" block of `map_columns` (lines 159-171),
evaluated per row (all the pandas operations there are row-aligned):
blank branch becomes None; a None branch is filled from the `address`
column; a branch still NaN is filled from `city1`; a branch still NaN
becomes "MAIN BRANCH".  After the clean/truncate loop the `address` and
`city1` cells hold strings, hence are never NaN in pandas; the model keeps
the two later fills exactly as written. -/
def fixBranch (r : Rec) : Rec :=
  let b0 : Option String := if pyStrip r.branch_name = "" then none else some r.branch_name
  let b1 : Option String := match b0 with
    | none => some r.address
    | some b => some b
  let b2 : Option String := match b1 with
    | none => some r.city1
    | some b => some b
  let b3 : String := match b2 with
    | none => "MAIN BRANCH"
    | some b => b
  { r with branch_name := b3 }

/-- Embeds `bank_folder_name.replace("_", " ")`: the pattern is the single
character `_`, so the replacement is a per-character map. -/
def underscoreToSpace (c : Char) : Char := if c = '_' then ' ' else c

/-- Python `str.replace("_", " ")`. -/
def pyReplaceUnderscore (s : String) : String := ⟨s.data.map underscoreToSpace⟩

/-- Dedup key of `drop_duplicates(subset=["ifsc_code", "branch_name"])`
and conflict key of the upsert. -/
def keyOf (r : Rec) : String × String := (r.ifsc_code, r.branch_name)

/-- Pandas `DataFrame.drop_duplicates(keep='first')` on the key columns: walk the
rows in order keeping a row iff its key was not seen before. -/
def dedupGo (seen : List (String × String)) : List Rec → List Rec
  | [] => []
  | x :: xs =>
      if keyOf x ∈ seen then dedupGo seen xs
      else x :: dedupGo (keyOf x :: seen) xs

/-- Embeds `out.drop_duplicates(subset=["ifsc_code", "branch_name"])` (line 181). -/
def drop_duplicates (l : List Rec) : List Rec := dedupGo [] l

/-- Embeds `map_columns` up to and including the branch fix: the mapping loop, the
whole-column bank_name fallback (`bank_folder_name.replace("_", " ").strip()`),
the clean/truncate loop and the branch-name fix — everything before the
explicit row-removal steps. -/
def normalize_records (df : Df) (bank_folder_name : String) : List Rec :=
  let raw := df.rows.map (mapRow df.cols)
  let raw2 :=
    if bankAllBlank raw then
      raw.map (fun r => { r with bank_name := some (pyStrip (pyReplaceUnderscore bank_folder_name)) })
    else raw
  (raw2.map cleanRec).map fixBranch

/-- Embeds `restore_excel_to_db.map_columns`: normalization, then the drop of rows
with blank `ifsc_code` (lines 175-178; the `notna` conjunct is vacuous on
string cells), then the in-file dedup (line 181). -/
def map_columns (df : Df) (bank_folder_name : String) : List Rec :=
  drop_duplicates ((normalize_records df bank_folder_name).filter (fun r => r.ifsc_code ≠ ""))

/-! ## Store model (`insert_rows_safe`)

The store is the `master_bank_details_copy` table, modelled as a list of
records.  The SQL of `insert_rows_safe` is
`INSERT ... ON CONFLICT (ifsc_code, branch_name) DO UPDATE SET` every
non-key field to the `EXCLUDED` (incoming) value; `execute_batch` issues it
once per record in batch order. -/

/-- The SQL `DO UPDATE SET` action: replace every non-key field of `old` by the incoming
record's value, keeping the key columns of the stored row. -/
def overwriteNonKey (old incoming : Rec) : Rec :=
  { old with
    bank_name := incoming.bank_name
    address   := incoming.address
    city1     := incoming.city1
    city2     := incoming.city2
    state     := incoming.state
    std_code  := incoming.std_code
    phone     := incoming.phone }

/-- One `INSERT ... ON CONFLICT (ifsc_code, branch_name) DO UPDATE` of the
SQL in `insert_rows_safe`: on key collision update the conflicting stored
row(s) in place, otherwise append the new row. -/
def upsert (store : List Rec) (r : Rec) : List Rec :=
  if store.any (fun x => keyOf x = keyOf r) then
    store.map (fun x => if keyOf x = keyOf r then overwriteNonKey x r else x)
  else store ++ [r]

/-- Embeds `insert_rows_safe` applied to a store: the batched execution is
logically one upsert per record in order. -/
def insert_rows_safe (store : List Rec) (rows : List Rec) : List Rec :=
  rows.foldl upsert store

/-! ## Merge gate (`mergexcel.merge_and_save_xlsx`)

A successfully read source file is a pair of its (transformed) rows and
the `original_row_count` reported by `read_xlsx_from_s3` at read time.
`merge_and_save_xlsx` concatenates the rows, sums the original counts and
— lines 449-461 — refuses to write the merged file when the two totals
differ, reporting expected count, actual count and the lost delta;
only when they are equal is the file saved.  Rows are left abstract. -/

/-- Outcome of `merge_and_save_xlsx`: no readable input files (early
return), save aborted with a data-loss report, or the merged file saved. -/
inductive MergeOutcome (α : Type) where
  | noFiles : MergeOutcome α
  | aborted (expected actual : Nat) (lost : Int) : MergeOutcome α
  | saved (merged : List α) : MergeOutcome α
deriving DecidableEq, Repr

/-- Embeds `merge_and_save_xlsx`, from the end of reading to the save decision:
`total_input_rows` is the sum of original per-file counts, the merged
dataframe is `pd.concat` of the per-file rows, and the critical check of
lines 449-461 gates the S3 write. -/
def merge_and_save_xlsx {α : Type} (files : List (List α × Nat)) : MergeOutcome α :=
  if files.isEmpty then MergeOutcome.noFiles
  else
    let total_input_rows := (files.map Prod.snd).sum
    let merged_df := (files.map Prod.fst).flatten
    let total_output_rows := merged_df.length
    if total_output_rows ≠ total_input_rows then
      MergeOutcome.aborted total_input_rows total_output_rows
        ((total_input_rows : Int) - (total_output_rows : Int))
    else
      MergeOutcome.saved merged_df

/-! ## Column resolution (`mergexcel.find_column_by_variations`)

`col_map = {col.lower().strip(): col for col in df.columns}` — a later
column with the same normalized key overwrites an earlier one, so lookup
returns the last matching column.  Then the variations are tried in order,
then the target name itself. -/

/-- Dictionary lookup in `col_map`: the last column whose
`col.lower().strip()` equals the key. -/
def colMapLookup (cols : List String) (k : String) : Option String :=
  cols.reverse.find? (fun c => pyStrip (pyLower c) = k)

/-- Embeds `mergexcel.find_column_by_variations`. -/
def find_column_by_variations (cols : List String) (target : String)
    (variations : List String) : Option String :=
  match variations.find? (fun v => (colMapLookup cols (pyLower v)).isSome) with
  | some v => colMapLookup cols (pyLower v)
  | none => colMapLookup cols (pyLower target)

/-! ## Helper lemmas -/

theorem allowed_lower {c : Char} (h : allowedChar c = true) : pyLowerChar c = c := by
  unfold pyLowerChar
  rw [if_neg]
  rintro ⟨h1, h2⟩
  unfold allowedChar at h
  simp only [Bool.or_eq_true, Bool.and_eq_true, decide_eq_true_eq, beq_iff_eq] at h
  rcases h with (⟨ha1, _⟩ | ⟨_, hb2⟩) | hc
  · exact absurd (le_trans ha1 h2) (by decide)
  · exact absurd (le_trans h1 hb2) (by decide)
  · subst hc; exact absurd h2 (by decide)

theorem allowed_not_space {c : Char} (h : allowedChar c = true) : pyIsSpace c = false := by
  by_contra hs
  rw [Bool.not_eq_false] at hs
  unfold pyIsSpace at hs
  simp only [Bool.or_eq_true, decide_eq_true_eq] at hs
  rcases hs with ((((hc | hc) | hc) | hc) | hc) | hc <;> subst hc <;> revert h <;> decide

theorem allowed_no_space_char {c : Char} (h : allowedChar c = true) :
    spaceToUnderscore c = c := by
  unfold spaceToUnderscore
  rw [if_neg]
  rintro rfl
  revert h; decide

theorem dropWhile_eq_self_of {p : Char → Bool} {l : List Char}
    (h : ∀ c ∈ l, p c = false) : l.dropWhile p = l := by
  cases l with
  | nil => rfl
  | cons a t => simp [List.dropWhile_cons, h a (List.mem_cons_self a t)]

theorem pyStripList_eq_self {l : List Char} (h : ∀ c ∈ l, pyIsSpace c = false) :
    pyStripList l = l := by
  unfold pyStripList
  rw [dropWhile_eq_self_of h,
    dropWhile_eq_self_of (fun c hc => h c (List.mem_reverse.mp hc)),
    List.reverse_reverse]

/-- Every character produced by `normalize` passes `allowedChar`. -/
theorem normalize_chars_allowed (s : String) :
    ∀ c ∈ (normalize s).data, allowedChar c = true := by
  intro c hc
  exact (List.mem_filter.mp hc).2

/-! ## C9 -/

/-- C9: the column-name normalization is idempotent —
`normalize (normalize c) = normalize c` for every string `c` — and its
output contains only characters in `[a-z0-9_]`. -/
theorem normalize_idempotent (s : String) :
    normalize (normalize s) = normalize s ∧
      ((normalize s).data.all allowedChar) = true := by
  have hall : ∀ c ∈ (normalize s).data, allowedChar c = true := normalize_chars_allowed s
  constructor
  · have h1 : pyStripList (normalize s).data = (normalize s).data :=
      pyStripList_eq_self (fun c hc => allowed_not_space (hall c hc))
    have h2 : (normalize s).data.map pyLowerChar = (normalize s).data := by
      conv_rhs => rw [← List.map_id (normalize s).data]
      exact List.map_congr_left (fun c hc => allowed_lower (hall c hc))
    have h3 : (normalize s).data.map spaceToUnderscore = (normalize s).data := by
      conv_rhs => rw [← List.map_id (normalize s).data]
      exact List.map_congr_left (fun c hc => allowed_no_space_char (hall c hc))
    have h4 : (normalize s).data.filter allowedChar = (normalize s).data :=
      List.filter_eq_self.mpr hall
    show String.mk _ = normalize s
    rw [h1, h2, h3, h4]
  · exact List.all_eq_true.mpr hall

/-! ## Membership lemmas for the `map_columns` stages -/

theorem mem_of_mem_dedupGo {r : Rec} :
    ∀ {seen : List (String × String)} {l : List Rec}, r ∈ dedupGo seen l → r ∈ l := by
  intro seen l
  induction l generalizing seen with
  | nil => intro h; exact absurd h (by simp [dedupGo])
  | cons x xs ih =>
    unfold dedupGo
    by_cases h : keyOf x ∈ seen
    · rw [if_pos h]
      intro hr
      exact List.mem_cons_of_mem x (ih hr)
    · rw [if_neg h]
      intro hr
      rcases List.mem_cons.mp hr with hx | hr
      · exact hx ▸ List.mem_cons_self x xs
      · exact List.mem_cons_of_mem x (ih hr)

theorem mem_of_mem_drop_duplicates {r : Rec} {l : List Rec}
    (h : r ∈ drop_duplicates l) : r ∈ l :=
  mem_of_mem_dedupGo h

/-- Every record output by `map_columns` arises as
`fixBranch (cleanRec r0)` for some raw record `r0` of the (possibly
bank-name-defaulted) mapping stage. -/
theorem map_columns_shape {df : Df} {bank : String} {r : Rec}
    (h : r ∈ map_columns df bank) :
    ∃ r0, r0 ∈ (let raw := df.rows.map (mapRow df.cols)
                if bankAllBlank raw then
                  raw.map (fun x => { x with bank_name := some (pyStrip (pyReplaceUnderscore bank)) })
                else raw) ∧
      r = fixBranch (cleanRec r0) := by
  unfold map_columns at h
  have h1 : r ∈ (normalize_records df bank).filter (fun r => r.ifsc_code ≠ "") :=
    mem_of_mem_drop_duplicates h
  have h2 : r ∈ normalize_records df bank := (List.mem_filter.mp h1).1
  unfold normalize_records at h2
  rcases List.mem_map.mp h2 with ⟨rc, hrc, hfix⟩
  rcases List.mem_map.mp hrc with ⟨r0, hr0, hclean⟩
  exact ⟨r0, hr0, by rw [← hfix, ← hclean]⟩

/-! ## C2 -/

/-- A one-row dataframe with no alias of `ifsc_code` among its columns. -/
def dfNoIfsc : Df := ⟨["bank_name"], [[("bank_name", some "SBI")]]⟩

/-- C2 counterexample: `map_columns` (the normalization routine the claim
cites) does not preserve the row count — on a one-row dataframe without an
`ifsc_code` column it returns zero records, because the blank-IFSC filter
and the in-file dedup run inside `map_columns` itself. -/
theorem map_columns_loses_rows :
    (map_columns dfNoIfsc "Some_Bank").length ≠ dfNoIfsc.rows.length := by decide

/-- C2 amended: the mapping / cleaning / branch-fix portion of
`map_columns` (everything before the explicit blank-IFSC filter and the
in-file dedup) yields exactly one canonical record per raw input row. -/
theorem normalize_records_length (df : Df) (bank : String) :
    (normalize_records df bank).length = df.rows.length := by
  unfold normalize_records
  by_cases h : bankAllBlank (df.rows.map (mapRow df.cols)) <;>
    simp [h, List.length_map]

/-! ## C3 -/

/-- Failing input for the branch-name fallback chain: the row has no
branch column and no address column but a non-empty `city1`. -/
def dfBranchChain : Df :=
  ⟨["ifsc_code", "city1"], [[("ifsc_code", some "ABCD0123456"), ("city1", some "DELHI")]]⟩

/-- A second failing input: branch, address and city1 all absent, so the
claimed chain would end at the sentinel "MAIN BRANCH". -/
def dfBranchChainEmpty : Df := ⟨["ifsc_code"], [[("ifsc_code", some "WXYZ0000002")]]⟩

/-- C3: the fallback chain is broken after its first step.  After the
clean/truncate loop the `address` column holds strings (never NaN), so
`out.loc[out["branch_name"].isna(), ...] = address` assigns even a blank
address, and the subsequent `city1` and "MAIN BRANCH" fills, which fire
only on NaN, are dead code.  A row with blank branch/address and
`city1 = "DELHI"` yields `branch_name = ""` (the claim says `"DELHI"`),
and a row with blank branch/address/city1 yields `""` (the claim says
`"MAIN BRANCH"`). -/
theorem branch_fallback_chain_dead :
    (map_columns dfBranchChain "Some_Bank").map Rec.branch_name = [""] ∧
    (map_columns dfBranchChain "Some_Bank").map Rec.city1 = ["DELHI"] ∧
    (map_columns dfBranchChainEmpty "Some_Bank").map Rec.branch_name = [""] := by
  decide

/-! ## C7 -/

/-- A one-row dataframe with a non-empty `city1` and no alias of `city2`
among its columns. -/
def dfNoCity2 : Df :=
  ⟨["ifsc_code", "city1"], [[("ifsc_code", some "WXYZ0000001"), ("city1", some "DELHI")]]⟩

/-- C7 counterexample: nothing in `map_columns` copies `city1` into an
absent `city2` — the record built from a row with `city1 = "DELHI"` and no
`city2` column has `city2 = ""`, not `"DELHI"`. -/
theorem city2_not_copied_from_city1 :
    (map_columns dfNoCity2 "Bank").map (fun r => (r.city2, r.city1)) = [("", "DELHI")] ∧
    ("" : String) ≠ "DELHI" := by decide

/-- Positional form of the normalization stage: the i-th output record of
`normalize_records` is the i-th input row pushed through the mapping loop,
the (whole-column) bank_name fallback, the clean/truncate loop and the
branch fix. -/
theorem normalize_records_getElem? (df : Df) (bank : String) (i : Nat) :
    (normalize_records df bank)[i]? = (df.rows[i]?).map (fun row =>
      fixBranch (cleanRec
        (if bankAllBlank (df.rows.map (mapRow df.cols)) then
          { mapRow df.cols row with
            bank_name := some (pyStrip (pyReplaceUnderscore bank)) }
        else mapRow df.cols row))) := by
  unfold normalize_records
  by_cases hb : bankAllBlank (df.rows.map (mapRow df.cols))
  · simp only [if_pos hb, List.getElem?_map, Option.map_map]
    rfl
  · simp only [if_neg hb, List.getElem?_map, Option.map_map]
    rfl

/-- C7 amended: for every input row whose resolved `city2` value is absent
(no alias column in the frame, or a NaN cell in an existing column) or
blank (whitespace only), the normalized record built from that row has
`city2 = ""` (the empty string, like every other absent non-mandatory
field) — `city1` is never copied into it. -/
theorem city2_empty_when_absent (df : Df) (bank : String) (i : Nat) (row : Row)
    (hrow : df.rows[i]? = some row)
    (h : mapField df.cols row "city2" = none ∨
      pyStrip ((mapField df.cols row "city2").getD "") = "") :
    ((normalize_records df bank)[i]?).map Rec.city2 = some "" := by
  have hclean : ∀ r0 : RawRec, r0.city2 = mapField df.cols row "city2" →
      (fixBranch (cleanRec r0)).city2 = "" := by
    intro r0 hc2
    show truncate r0.city2 (LIMITS "city2") = ""
    rw [hc2]
    rcases h with h | h
    · rw [h]
      rfl
    · cases hm : mapField df.cols row "city2" with
      | none => rfl
      | some s =>
        rw [hm] at h
        have hempty : pyStripList s.data = [] := congrArg String.data h
        show String.mk ((pyStripList s.data).take (LIMITS "city2")) = ""
        rw [hempty]
        rfl
  rw [normalize_records_getElem?, hrow, Option.map_some', Option.map_some']
  by_cases hb : bankAllBlank (df.rows.map (mapRow df.cols))
  · rw [if_pos hb]
    exact congrArg some (hclean _ rfl)
  · rw [if_neg hb]
    exact congrArg some (hclean _ rfl)

/-- The record produced by `map_columns` on `dfNoCity2`. -/
def recNoCity2 : Rec := ⟨"Bank", "", "WXYZ0000001", "", "DELHI", "", "", "", ""⟩

/-- A one-row dataframe that does have a `city2` column, whose only row
holds a NaN cell there (a missing cell under a `dtype=str` read). -/
def dfCity2Nan : Df :=
  ⟨["ifsc_code", "city1", "city2"],
    [[("ifsc_code", some "WXYZ0000003"), ("city1", some "DELHI"), ("city2", none)]]⟩

/-- Witness for the amended C7 theorem at a concrete dataframe whose
`city2` column exists but holds a NaN cell in the row: the resolved value
is absent per row, and the normalized record's city2 is empty. -/
theorem city2_empty_when_absent_witness :
    ((normalize_records dfCity2Nan "Bank")[0]?).map Rec.city2 = some "" :=
  city2_empty_when_absent dfCity2Nan "Bank" 0
    [("ifsc_code", some "WXYZ0000003"), ("city1", some "DELHI"), ("city2", none)]
    rfl (Or.inl rfl)

/-! ## C1 -/

/-- C1: the save gate of `merge_and_save_xlsx`.  The merged file is saved
if and only if the merged row count equals the sum of the original
per-file row counts; on a mismatch the function returns before the S3
write with a report carrying the expected count, the actual count and the
lost delta. -/
theorem merge_gate {α : Type} (files : List (List α × Nat)) :
    (∀ m, merge_and_save_xlsx files = MergeOutcome.saved m →
        m = (files.map Prod.fst).flatten ∧
        m.length = (files.map Prod.snd).sum) ∧
    ((files.map Prod.fst).flatten.length ≠ (files.map Prod.snd).sum →
        merge_and_save_xlsx files =
          MergeOutcome.aborted ((files.map Prod.snd).sum)
            ((files.map Prod.fst).flatten.length)
            (((files.map Prod.snd).sum : Int) -
              ((files.map Prod.fst).flatten.length : Int))) := by
  unfold merge_and_save_xlsx
  by_cases hemp : files.isEmpty
  · rw [if_pos hemp]
    have : files = [] := List.isEmpty_iff.mp hemp
    subst this
    exact ⟨fun m h => absurd h (by simp), fun h => absurd rfl h⟩
  · rw [if_neg hemp]
    by_cases hne : (files.map Prod.fst).flatten.length ≠ (files.map Prod.snd).sum
    · rw [if_pos hne]
      exact ⟨fun m h => absurd h (by simp), fun _ => rfl⟩
    · rw [if_neg hne]
      push_neg at hne
      exact ⟨fun m h => by
          injection h with h
          exact ⟨h.symm, h ▸ hne⟩,
        fun h => absurd hne h⟩

/-- Witness for the merge gate at a concrete run: two merged rows against
three reported input rows aborts with expected 3, actual 2, delta 1; a
matching run saves. -/
theorem merge_gate_witness :
    merge_and_save_xlsx [([1, 2], 3)] = MergeOutcome.aborted 3 2 1 ∧
    merge_and_save_xlsx [([1, 2], 2)] = MergeOutcome.saved [1, 2] := by
  constructor
  · exact (merge_gate [([1, 2], 3)]).2 (by decide)
  · decide

/-! ## C8 -/

/-- C8 counterexample: the token blanking is exact-casing only.  The cell
text "NAN" survives the mergexcel whole-cell replacement unchanged, and in
the restore path `truncate` keeps even the lowercase token "nan" as
literal text (`pd.isna` is false on strings). -/
theorem na_tokens_not_any_case :
    replace_na_tokens "NAN" = "NAN" ∧ replace_na_tokens "NAN" ≠ "" ∧
    truncate (some "nan") 100 = "nan" ∧ truncate (some "nan") 100 ≠ "" := by
  decide

/-- C8 amended: in the merge path a cell exactly equal to one of the
literal strings `nan`, `None`, `none`, `NULL`, `null`, `NaT` is blanked to
the empty string; all other values — including other casings of the same
tokens — are kept as literal text. -/
theorem na_tokens_exact (s : String) :
    (s ∈ NA_TOKENS → replace_na_tokens s = "") ∧
    (s ∉ NA_TOKENS → replace_na_tokens s = s) := by
  unfold replace_na_tokens
  constructor
  · intro h; rw [if_pos h]
  · intro h; rw [if_neg h]

/-- Witness for the amended C8 theorem at concrete tokens. -/
theorem na_tokens_exact_witness :
    replace_na_tokens "nan" = "" ∧ replace_na_tokens "NULL" = "" ∧
    replace_na_tokens "NaN" = "NaN" :=
  ⟨(na_tokens_exact "nan").1 (by decide),
   (na_tokens_exact "NULL").1 (by decide),
   (na_tokens_exact "NaN").2 (by decide)⟩

/-! ## C5 -/

theorem colMapLookup_some {cols : List String} {k c : String}
    (h : colMapLookup cols k = some c) : c ∈ cols ∧ pyStrip (pyLower c) = k := by
  unfold colMapLookup at h
  have h1 := List.find?_some h
  have h2 := List.mem_of_find?_eq_some h
  exact ⟨List.mem_reverse.mp h2, by simpa using h1⟩

theorem colMapLookup_eq_none {cols : List String} {k : String} :
    colMapLookup cols k = none ↔ ∀ c ∈ cols, pyStrip (pyLower c) ≠ k := by
  unfold colMapLookup
  rw [List.find?_eq_none]
  constructor
  · intro h c hc
    have := h c (List.mem_reverse.mpr hc)
    simpa using this
  · intro h c hc
    have := h c (List.mem_reverse.mp hc)
    simpa using this

/-- C5: column resolution in `find_column_by_variations`.  (1) It returns
nothing exactly when no variation has a normalized match among the raw
column names and the target name itself has none either (it is a total
function, so it cannot raise).  (2) When some variation matches, the
result is the column matched by the *first* variation in priority order:
if `v` is the first variation whose normalized form has a match, the
returned column's normalized form equals `v`'s. -/
theorem find_column_spec (cols : List String) (target : String)
    (variations : List String) :
    (find_column_by_variations cols target variations = none ↔
      (∀ v ∈ variations, ∀ c ∈ cols, pyStrip (pyLower c) ≠ pyLower v) ∧
      (∀ c ∈ cols, pyStrip (pyLower c) ≠ pyLower target)) ∧
    (∀ v, variations.find? (fun v => (colMapLookup cols (pyLower v)).isSome) = some v →
      ∃ c, c ∈ cols ∧ find_column_by_variations cols target variations = some c ∧
        pyStrip (pyLower c) = pyLower v) := by
  constructor
  · cases hf : variations.find? (fun v => (colMapLookup cols (pyLower v)).isSome) with
    | none =>
      have heq : find_column_by_variations cols target variations =
          colMapLookup cols (pyLower target) := by
        unfold find_column_by_variations
        rw [hf]
      rw [heq, colMapLookup_eq_none]
      have hall : ∀ v ∈ variations, ∀ c ∈ cols, pyStrip (pyLower c) ≠ pyLower v := by
        intro v hv c hc hkey
        have hnone := List.find?_eq_none.mp hf v hv
        apply hnone
        have : colMapLookup cols (pyLower v) ≠ none := by
          intro h0
          exact colMapLookup_eq_none.mp h0 c hc hkey
        simpa [Option.isSome_iff_ne_none] using this
      constructor
      · intro h; exact ⟨hall, h⟩
      · intro h; exact h.2
    | some v =>
      have heq : find_column_by_variations cols target variations =
          colMapLookup cols (pyLower v) := by
        unfold find_column_by_variations
        rw [hf]
      have hv := List.find?_some hf
      have hvmem := List.mem_of_find?_eq_some hf
      rw [heq]
      constructor
      · intro h
        rw [h] at hv
        exact absurd hv (by simp)
      · intro h
        exfalso
        rcases Option.isSome_iff_exists.mp hv with ⟨c, hc⟩
        rcases colMapLookup_some hc with ⟨hcm, hkey⟩
        exact h.1 v hvmem c hcm hkey
  · intro v hf
    have hv := List.find?_some hf
    rcases Option.isSome_iff_exists.mp hv with ⟨c, hc⟩
    rcases colMapLookup_some hc with ⟨hcm, hkey⟩
    refine ⟨c, hcm, ?_, hkey⟩
    have heq : find_column_by_variations cols target variations =
        colMapLookup cols (pyLower v) := by
      unfold find_column_by_variations
      rw [hf]
    rw [heq, hc]

/-- Witness for C5 at concrete inputs: a file without any branch-like
column resolves to nothing (no exception path exists), and with columns
`["Branch", "Branch Name "]` and variations `["branch name", "branch"]`
the first variation wins, returning the raw name "Branch Name ". -/
theorem find_column_spec_witness :
    find_column_by_variations ["Foo Col"] "Branch Name" ["branch name", "branch"] = none ∧
    find_column_by_variations ["Branch", "Branch Name "] "Branch Name"
      ["branch name", "branch"] = some "Branch Name " := by
  constructor
  · exact (find_column_spec ["Foo Col"] "Branch Name" ["branch name", "branch"]).1.mpr
      (by decide)
  · obtain ⟨c, hc, heq, hkey⟩ :=
      (find_column_spec ["Branch", "Branch Name "] "Branch Name"
        ["branch name", "branch"]).2 "branch name" (by decide)
    simp only [List.mem_cons, List.mem_singleton, List.not_mem_nil, or_false] at hc
    rcases hc with hc | hc
    · subst hc
      exact absurd hkey (by decide)
    · subst hc
      exact heq

/-! ## C10 -/

theorem truncate_length (v : Option String) (n : Nat) : (truncate v n).length ≤ n := by
  cases v with
  | none => simp [truncate, String.length]
  | some s =>
    show ((pyStripList s.data).take n).length ≤ n
    rw [List.length_take]
    exact min_le_left _ _

theorem clean_digits_length (v : Option String) (n : Nat) :
    (clean_digits v n).length ≤ n := by
  cases v with
  | none => simp [clean_digits, String.length]
  | some s =>
    show ((s.data.filter isPyDigit).take n).length ≤ n
    rw [List.length_take]
    exact min_le_left _ _

theorem clean_digits_digits (v : Option String) (n : Nat) :
    (clean_digits v n).data.all isPyDigit = true := by
  cases v with
  | none => rfl
  | some s =>
    apply List.all_eq_true.mpr
    intro c hc
    exact (List.mem_filter.mp (List.mem_of_mem_take hc)).2

/-- The effective branch fix: blank branch takes the (already-cleaned)
address value, otherwise the branch stays. -/
theorem fixBranch_branch (r : Rec) :
    (fixBranch r).branch_name =
      if pyStrip r.branch_name = "" then r.address else r.branch_name := by
  unfold fixBranch
  by_cases h : pyStrip r.branch_name = "" <;> simp [h]

/-- C10: totality of `map_columns` output.  Every record field is a string
(enforced by the record type `Rec`: after the clean/truncate loop no cell
is NaN/None), every field respects its declared `LIMITS` length bound, and
the `digits_only` fields `std_code` and `phone` contain only digit
characters.  The branch fix can move the address (limit 100) or city1
(limit 50) value — or "MAIN BRANCH" — into `branch_name`; all stay within
`branch_name`'s limit of 100. -/
theorem map_columns_field_limits (df : Df) (bank : String) :
    ∀ r ∈ map_columns df bank,
      r.bank_name.length ≤ LIMITS "bank_name" ∧
      r.branch_name.length ≤ LIMITS "branch_name" ∧
      r.ifsc_code.length ≤ LIMITS "ifsc_code" ∧
      r.address.length ≤ LIMITS "address" ∧
      r.city1.length ≤ LIMITS "city1" ∧
      r.city2.length ≤ LIMITS "city2" ∧
      r.state.length ≤ LIMITS "state" ∧
      r.std_code.length ≤ LIMITS "std_code" ∧
      r.phone.length ≤ LIMITS "phone" ∧
      r.std_code.data.all isPyDigit = true ∧
      r.phone.data.all isPyDigit = true := by
  intro r hr
  rcases map_columns_shape hr with ⟨r0, _, rfl⟩
  refine ⟨truncate_length _ _, ?_, truncate_length _ _, truncate_length _ _,
    truncate_length _ _, truncate_length _ _, truncate_length _ _,
    clean_digits_length _ _, clean_digits_length _ _,
    clean_digits_digits _ _, clean_digits_digits _ _⟩
  rw [fixBranch_branch]
  by_cases h : pyStrip (cleanRec r0).branch_name = ""
  · rw [if_pos h]
    exact le_trans (truncate_length _ _) (by decide)
  · rw [if_neg h]
    exact truncate_length _ _

/-- Witness for C10 at the record produced from the concrete dataframe
`dfNoCity2`. -/
theorem map_columns_field_limits_witness :
    recNoCity2.bank_name.length ≤ LIMITS "bank_name" ∧
    recNoCity2.branch_name.length ≤ LIMITS "branch_name" ∧
    recNoCity2.ifsc_code.length ≤ LIMITS "ifsc_code" ∧
    recNoCity2.address.length ≤ LIMITS "address" ∧
    recNoCity2.city1.length ≤ LIMITS "city1" ∧
    recNoCity2.city2.length ≤ LIMITS "city2" ∧
    recNoCity2.state.length ≤ LIMITS "state" ∧
    recNoCity2.std_code.length ≤ LIMITS "std_code" ∧
    recNoCity2.phone.length ≤ LIMITS "phone" ∧
    recNoCity2.std_code.data.all isPyDigit = true ∧
    recNoCity2.phone.data.all isPyDigit = true :=
  map_columns_field_limits dfNoCity2 "Bank" recNoCity2 (by decide)

/-! ## C6 -/

/-- Multiplicity of a dedup key in a batch. -/
def countKey (l : List Rec) (k : String × String) : Nat :=
  (l.map keyOf).countP (fun x => decide (x = k))

theorem dedupGo_sublist (seen : List (String × String)) (l : List Rec) :
    List.Sublist (dedupGo seen l) l := by
  induction l generalizing seen with
  | nil => simp [dedupGo]
  | cons x xs ih =>
    unfold dedupGo
    by_cases h : keyOf x ∈ seen
    · rw [if_pos h]
      exact List.Sublist.cons x (ih seen)
    · rw [if_neg h]
      exact List.Sublist.cons₂ x (ih _)

theorem dedupGo_key_not_seen {seen : List (String × String)} {l : List Rec} :
    ∀ y ∈ dedupGo seen l, keyOf y ∉ seen := by
  induction l generalizing seen with
  | nil => simp [dedupGo]
  | cons x xs ih =>
    intro y hy
    unfold dedupGo at hy
    by_cases h : keyOf x ∈ seen
    · rw [if_pos h] at hy
      exact ih y hy
    · rw [if_neg h] at hy
      rcases List.mem_cons.mp hy with rfl | hy
      · exact h
      · intro hseen
        exact ih y hy (List.mem_cons_of_mem _ hseen)

theorem dedupGo_find_first {seen : List (String × String)} {l : List Rec} :
    ∀ y ∈ dedupGo seen l,
      l.find? (fun r => decide (keyOf r = keyOf y)) = some y := by
  induction l generalizing seen with
  | nil => simp [dedupGo]
  | cons x xs ih =>
    intro y hy
    unfold dedupGo at hy
    by_cases h : keyOf x ∈ seen
    · rw [if_pos h] at hy
      have hnot : keyOf y ∉ seen := dedupGo_key_not_seen y hy
      have hne : keyOf x ≠ keyOf y := fun he => hnot (he ▸ h)
      rw [List.find?_cons_of_neg _ (by simpa using hne)]
      exact ih y hy
    · rw [if_neg h] at hy
      rcases List.mem_cons.mp hy with rfl | hy
      · exact List.find?_cons_of_pos _ (by simp)
      · have hnot : keyOf y ∉ keyOf x :: seen := dedupGo_key_not_seen y hy
        have hne : keyOf x ≠ keyOf y := by
          intro he
          exact hnot (he ▸ List.mem_cons_self _ _)
        rw [List.find?_cons_of_neg _ (by simpa using hne)]
        exact ih y hy

theorem dedupGo_complete {seen : List (String × String)} {l : List Rec} :
    ∀ x ∈ l, keyOf x ∉ seen → ∃ y ∈ dedupGo seen l, keyOf y = keyOf x := by
  induction l generalizing seen with
  | nil => simp
  | cons x' xs ih =>
    intro x hx hnot
    unfold dedupGo
    by_cases h : keyOf x' ∈ seen
    · rw [if_pos h]
      rcases List.mem_cons.mp hx with rfl | hx
      · exact absurd h hnot
      · exact ih x hx hnot
    · rw [if_neg h]
      by_cases hk : keyOf x = keyOf x'
      · exact ⟨x', List.mem_cons_self _ _, hk.symm⟩
      · rcases List.mem_cons.mp hx with rfl | hx
        · exact absurd rfl hk
        · have hnot2 : keyOf x ∉ keyOf x' :: seen := by
            intro hmem
            rcases List.mem_cons.mp hmem with he | hmem
            · exact hk he
            · exact hnot hmem
          rcases ih x hx hnot2 with ⟨y, hy, hky⟩
          exact ⟨y, List.mem_cons_of_mem _ hy, hky⟩

theorem dedupGo_nodup_keys {seen : List (String × String)} {l : List Rec} :
    ((dedupGo seen l).map keyOf).Nodup := by
  induction l generalizing seen with
  | nil => simp [dedupGo]
  | cons x xs ih =>
    unfold dedupGo
    by_cases h : keyOf x ∈ seen
    · rw [if_pos h]
      exact ih
    · rw [if_neg h]
      simp only [List.map_cons, List.nodup_cons]
      refine ⟨?_, ih⟩
      intro hmem
      rcases List.mem_map.mp hmem with ⟨y, hy, hky⟩
      exact dedupGo_key_not_seen y hy (hky ▸ List.mem_cons_self _ _)

theorem length_filter_not {K : Type} (p : K → Bool) (l : List K) :
    (l.filter p).length + (l.filter (fun x => !p x)).length = l.length := by
  induction l with
  | nil => rfl
  | cons a t ih =>
    by_cases h : p a <;> simp [List.filter_cons, h] <;> omega

/-- Summing the multiplicities (in `ks`) of a duplicate-free enumeration
`ds` of exactly the values of `ks` recovers the length of `ks`. -/
theorem sum_countP_of_nodup_same_mem {K : Type} [DecidableEq K] :
    ∀ (ds : List K) (ks : List K), ds.Nodup → (∀ k, k ∈ ds ↔ k ∈ ks) →
      (ds.map (fun k => ks.countP (fun x => decide (x = k)))).sum = ks.length := by
  intro ds
  induction ds with
  | nil =>
    intro ks _ hmem
    have : ks = [] :=
      List.eq_nil_iff_forall_not_mem.mpr (fun k hk => (List.not_mem_nil k) ((hmem k).mpr hk))
    subst this
    rfl
  | cons d ds' ih =>
    intro ks hnd hmem
    have hdns : d ∉ ds' := (List.nodup_cons.mp hnd).1
    have hnd' : ds'.Nodup := (List.nodup_cons.mp hnd).2
    simp only [List.map_cons, List.sum_cons]
    have hstep : ∀ k ∈ ds', ks.countP (fun x => decide (x = k)) =
        (ks.filter (fun x => !decide (x = d))).countP (fun x => decide (x = k)) := by
      intro k hk
      have hkd : k ≠ d := fun he => hdns (he ▸ hk)
      rw [List.countP_filter]
      apply List.countP_congr
      intro x _
      by_cases hxk : x = k
      · subst hxk
        simp [hkd]
      · simp [hxk]
    have hmap : ds'.map (fun k => ks.countP (fun x => decide (x = k))) =
        ds'.map (fun k =>
          (ks.filter (fun x => !decide (x = d))).countP (fun x => decide (x = k))) :=
      List.map_congr_left hstep
    have hmemf : ∀ k, k ∈ ds' ↔ k ∈ ks.filter (fun x => !decide (x = d)) := by
      intro k
      constructor
      · intro hk
        have hkd : k ≠ d := fun he => hdns (he ▸ hk)
        have hks : k ∈ ks := (hmem k).mp (List.mem_cons_of_mem _ hk)
        exact List.mem_filter.mpr ⟨hks, by simp [hkd]⟩
      · intro hk
        rcases List.mem_filter.mp hk with ⟨hks, hne⟩
        rcases List.mem_cons.mp ((hmem k).mpr hks) with he | h
        · rw [he] at hne
          simp at hne
        · exact h
    rw [hmap, ih (ks.filter (fun x => !decide (x = d))) hnd' hmemf,
      List.countP_eq_length_filter]
    exact length_filter_not (fun x => decide (x = d)) ks

theorem length_le_sum_of_one_le {f : Rec → Nat} {d : List Rec}
    (h : ∀ r ∈ d, 1 ≤ f r) : d.length ≤ (d.map f).sum := by
  induction d with
  | nil => simp
  | cons a t ih =>
    simp only [List.length_cons, List.map_cons, List.sum_cons]
    have h1 := h a (List.mem_cons_self a t)
    have ht := ih (fun r hr => h r (List.mem_cons_of_mem _ hr))
    omega

theorem sum_pred_of_one_le {f : Rec → Nat} {d : List Rec}
    (h : ∀ r ∈ d, 1 ≤ f r) :
    (d.map (fun r => f r - 1)).sum = (d.map f).sum - d.length := by
  induction d with
  | nil => rfl
  | cons a t ih =>
    simp only [List.length_cons, List.map_cons, List.sum_cons]
    have h1 := h a (List.mem_cons_self a t)
    have htail : ∀ r ∈ t, 1 ≤ f r := fun r hr => h r (List.mem_cons_of_mem _ hr)
    have ht := ih htail
    have hlen := length_le_sum_of_one_le htail
    omega

/-- Keys of the dedup output are exactly the keys occurring in the batch. -/
theorem drop_duplicates_keys_mem (l : List Rec) (k : String × String) :
    k ∈ (drop_duplicates l).map keyOf ↔ k ∈ l.map keyOf := by
  constructor
  · intro h
    rcases List.mem_map.mp h with ⟨y, hy, rfl⟩
    exact List.mem_map.mpr ⟨y, mem_of_mem_drop_duplicates hy, rfl⟩
  · intro h
    rcases List.mem_map.mp h with ⟨x, hx, rfl⟩
    rcases dedupGo_complete x hx (List.not_mem_nil _) with ⟨y, hy, hky⟩
    exact List.mem_map.mpr ⟨y, hy, hky⟩

/-- The multiplicities of the distinct keys sum to the batch length. -/
theorem sum_countKey_drop_duplicates (l : List Rec) :
    ((drop_duplicates l).map (fun r => countKey l (keyOf r))).sum = l.length := by
  have h1 : (drop_duplicates l).map (fun r => countKey l (keyOf r)) =
      ((drop_duplicates l).map keyOf).map
        (fun k => (l.map keyOf).countP (fun x => decide (x = k))) := by
    rw [List.map_map]
    rfl
  rw [h1]
  have hnd : ((drop_duplicates l).map keyOf).Nodup := dedupGo_nodup_keys
  have hmem : ∀ k, k ∈ (drop_duplicates l).map keyOf ↔ k ∈ l.map keyOf :=
    drop_duplicates_keys_mem l
  rw [sum_countP_of_nodup_same_mem _ _ hnd hmem, List.length_map]

/-- C6: in-batch dedup on (`ifsc_code`, `branch_name`).  The output is a
sublist of the batch (original order), each kept record is the first
occurrence of its key, every key of the batch survives, the kept keys are
pairwise distinct, and the number of removed records equals the sum over
the distinct keys of (multiplicity − 1). -/
theorem drop_duplicates_spec (l : List Rec) :
    List.Sublist (drop_duplicates l) l ∧
    (∀ y ∈ drop_duplicates l,
      l.find? (fun r => decide (keyOf r = keyOf y)) = some y) ∧
    (∀ x ∈ l, ∃ y ∈ drop_duplicates l, keyOf y = keyOf x) ∧
    ((drop_duplicates l).map keyOf).Nodup ∧
    l.length - (drop_duplicates l).length =
      ((drop_duplicates l).map (fun r => countKey l (keyOf r) - 1)).sum := by
  have hone : ∀ r ∈ drop_duplicates l, 1 ≤ countKey l (keyOf r) := by
    intro r hr
    have : keyOf r ∈ l.map keyOf :=
      List.mem_map.mpr ⟨r, mem_of_mem_drop_duplicates hr, rfl⟩
    unfold countKey
    exact List.countP_pos_iff.mpr ⟨keyOf r, this, by simp⟩
  refine ⟨dedupGo_sublist [] l, fun y hy => dedupGo_find_first y hy,
    fun x hx => dedupGo_complete x hx (List.not_mem_nil _),
    dedupGo_nodup_keys, ?_⟩
  rw [sum_pred_of_one_le hone, sum_countKey_drop_duplicates]

/-- Three concrete records; the first and third collide on the key. -/
def recA : Rec := ⟨"B", "BR1", "I1", "A", "C", "C", "S", "1", "2"⟩

def recB : Rec := ⟨"B2", "BR2", "I2", "A", "C", "C", "S", "1", "2"⟩

def recA2 : Rec := ⟨"B3", "BR1", "I1", "A2", "C2", "C2", "S2", "3", "4"⟩

/-- Witness for C6 at a concrete batch with one duplicated key: the kept
record `recA` is the first occurrence of its key, and the batch of three
shrinks by exactly one. -/
theorem drop_duplicates_spec_witness :
    List.find? (fun r => decide (keyOf r = keyOf recA)) [recA, recB, recA2] =
      some recA ∧
    [recA, recB, recA2].length - (drop_duplicates [recA, recB, recA2]).length =
      ((drop_duplicates [recA, recB, recA2]).map
        (fun r => countKey [recA, recB, recA2] (keyOf r) - 1)).sum :=
  ⟨(drop_duplicates_spec [recA, recB, recA2]).2.1 recA (by decide),
   (drop_duplicates_spec [recA, recB, recA2]).2.2.2.2⟩

/-! ## C4 -/

/-- On a key collision the updated stored row is exactly the incoming
record: the key columns agree and every non-key column is overwritten. -/
theorem overwriteNonKey_eq {x r : Rec} (h : keyOf x = keyOf r) :
    overwriteNonKey x r = r := by
  unfold keyOf at h
  rcases Prod.mk.injEq _ _ _ _ ▸ h with ⟨h1, h2⟩
  cases x
  cases r
  simp only [Rec.mk.injEq] at h1 h2 ⊢
  unfold overwriteNonKey
  simp_all

theorem keyOf_overwriteNonKey (x r : Rec) : keyOf (overwriteNonKey x r) = keyOf x := rfl

theorem upsert_eq_replace {s : List Rec} {r : Rec}
    (h : (s.any fun x => decide (keyOf x = keyOf r)) = true) :
    upsert s r = s.map (fun x => if keyOf x = keyOf r then r else x) := by
  unfold upsert
  rw [if_pos h]
  apply List.map_congr_left
  intro x _
  by_cases hx : keyOf x = keyOf r
  · rw [if_pos hx, if_pos hx, overwriteNonKey_eq hx]
  · rw [if_neg hx, if_neg hx]

theorem hasKey_upsert_mono {s : List Rec} {k : String × String} {r : Rec}
    (h : (s.any fun x => decide (keyOf x = k)) = true) :
    ((upsert s r).any fun x => decide (keyOf x = k)) = true := by
  rcases List.any_eq_true.mp h with ⟨x, hx, hk⟩
  rw [decide_eq_true_eq] at hk
  unfold upsert
  by_cases hc : (s.any fun y => decide (keyOf y = keyOf r)) = true
  · rw [if_pos hc]
    apply List.any_eq_true.mpr
    refine ⟨if keyOf x = keyOf r then overwriteNonKey x r else x,
      List.mem_map.mpr ⟨x, hx, rfl⟩, ?_⟩
    by_cases hxr : keyOf x = keyOf r
    · rw [if_pos hxr, decide_eq_true_eq, keyOf_overwriteNonKey]
      exact hk
    · rw [if_neg hxr, decide_eq_true_eq]
      exact hk
  · rw [if_neg hc]
    apply List.any_eq_true.mpr
    exact ⟨x, List.mem_append_left _ hx, by rw [decide_eq_true_eq]; exact hk⟩

theorem hasKey_upsert_self (s : List Rec) (r : Rec) :
    ((upsert s r).any fun x => decide (keyOf x = keyOf r)) = true := by
  unfold upsert
  by_cases hc : (s.any fun y => decide (keyOf y = keyOf r)) = true
  · rw [if_pos hc]
    rcases List.any_eq_true.mp hc with ⟨x, hx, hk⟩
    rw [decide_eq_true_eq] at hk
    apply List.any_eq_true.mpr
    refine ⟨if keyOf x = keyOf r then overwriteNonKey x r else x,
      List.mem_map.mpr ⟨x, hx, rfl⟩, ?_⟩
    rw [if_pos hk, decide_eq_true_eq, keyOf_overwriteNonKey]
    exact hk
  · rw [if_neg hc]
    apply List.any_eq_true.mpr
    exact ⟨r, List.mem_append_right _ (List.mem_singleton.mpr rfl), by simp⟩

theorem hasKey_insert_rows_safe {b : List Rec} :
    ∀ {s : List Rec} {k : String × String},
      (s.any fun x => decide (keyOf x = k)) = true →
      ((insert_rows_safe s b).any fun x => decide (keyOf x = k)) = true := by
  induction b with
  | nil => intro s k h; exact h
  | cons r b' ih =>
    intro s k h
    exact ih (hasKey_upsert_mono h)

theorem hasKey_insert_of_mem {b : List Rec} :
    ∀ {s : List Rec} {r : Rec}, r ∈ b →
      ((insert_rows_safe s b).any fun x => decide (keyOf x = keyOf r)) = true := by
  induction b with
  | nil => intro s r h; exact absurd h (List.not_mem_nil r)
  | cons r' b' ih =>
    intro s r h
    rcases List.mem_cons.mp h with rfl | h
    · show ((insert_rows_safe (upsert s r) b').any fun x => decide (keyOf x = keyOf r)) = true
      exact hasKey_insert_rows_safe (hasKey_upsert_self s r)
    · exact ih h

/-- The last record of a batch carrying a given key (the record whose
values the upsert leaves in the store for that key). -/
def findLastKey : List Rec → String × String → Option Rec
  | [], _ => none
  | r :: b, k =>
      match findLastKey b k with
      | some y => some y
      | none => if keyOf r = k then some r else none

/-- The net effect of a batch on one stored record. -/
def updLast (b : List Rec) (x : Rec) : Rec := (findLastKey b (keyOf x)).getD x

theorem findLastKey_eq_none_iff {b : List Rec} {k : String × String} :
    findLastKey b k = none ↔ ∀ y ∈ b, keyOf y ≠ k := by
  induction b with
  | nil => simp [findLastKey]
  | cons r b' ih =>
    unfold findLastKey
    cases hf : findLastKey b' k with
    | some y =>
      simp only []
      constructor
      · intro h; exact absurd h (by simp)
      · intro h
        exfalso
        have := ih.mpr (fun y hy => h y (List.mem_cons_of_mem _ hy))
        rw [this] at hf
        exact Option.noConfusion hf
    | none =>
      simp only []
      by_cases hr : keyOf r = k
      · rw [if_pos hr]
        constructor
        · intro h; exact absurd h (by simp)
        · intro h; exact absurd hr (h r (List.mem_cons_self _ _))
      · rw [if_neg hr]
        constructor
        · intro _ y hy
          rcases List.mem_cons.mp hy with rfl | hy
          · exact hr
          · exact ih.mp hf y hy
        · intro _; rfl

theorem updLast_nil (x : Rec) : updLast [] x = x := rfl

theorem findLastKey_cons (r : Rec) (b : List Rec) (k : String × String) :
    findLastKey (r :: b) k =
      match findLastKey b k with
      | some y => some y
      | none => if keyOf r = k then some r else none := rfl

theorem updLast_cons (r : Rec) (b : List Rec) (x : Rec) :
    updLast (r :: b) x = updLast b (if keyOf x = keyOf r then r else x) := by
  by_cases hx : keyOf x = keyOf r
  · rw [if_pos hx]
    show (findLastKey (r :: b) (keyOf x)).getD x = (findLastKey b (keyOf r)).getD r
    rw [hx, findLastKey_cons]
    cases hf : findLastKey b (keyOf r) with
    | some y => rfl
    | none => simp
  · rw [if_neg hx]
    show (findLastKey (r :: b) (keyOf x)).getD x = (findLastKey b (keyOf x)).getD x
    rw [findLastKey_cons]
    cases hf : findLastKey b (keyOf x) with
    | some y => rfl
    | none => rw [if_neg (fun h => hx (Eq.symm h))]

theorem insert_eq_map_updLast :
    ∀ (b : List Rec) (u : List Rec),
      (∀ r ∈ b, (u.any fun x => decide (keyOf x = keyOf r)) = true) →
      insert_rows_safe u b = u.map (updLast b) := by
  intro b
  induction b with
  | nil =>
    intro u _
    show u = u.map (updLast [])
    conv_lhs => rw [← List.map_id u]
    exact List.map_congr_left (fun x _ => rfl)
  | cons r b' ih =>
    intro u h
    show insert_rows_safe (upsert u r) b' = u.map (updLast (r :: b'))
    have hr : (u.any fun x => decide (keyOf x = keyOf r)) = true :=
      h r (List.mem_cons_self _ _)
    have hb' : ∀ r' ∈ b', ((upsert u r).any fun x => decide (keyOf x = keyOf r')) = true :=
      fun r' hr' => hasKey_upsert_mono (h r' (List.mem_cons_of_mem _ hr'))
    rw [ih (upsert u r) hb', upsert_eq_replace hr, List.map_map]
    apply List.map_congr_left
    intro x _
    show updLast b' (if keyOf x = keyOf r then r else x) = updLast (r :: b') x
    exact (updLast_cons r b' x).symm

theorem mem_of_mem_upsert_key_ne {u : List Rec} {r x : Rec}
    (hx : x ∈ upsert u r) (hne : keyOf r ≠ keyOf x) : x ∈ u := by
  unfold upsert at hx
  by_cases hc : (u.any fun y => decide (keyOf y = keyOf r)) = true
  · rw [if_pos hc] at hx
    rcases List.mem_map.mp hx with ⟨x0, hx0, hmap⟩
    by_cases hk : keyOf x0 = keyOf r
    · rw [if_pos hk, overwriteNonKey_eq hk] at hmap
      exact absurd (hmap ▸ rfl : keyOf x = keyOf r) (fun h => hne h.symm)
    · rw [if_neg hk] at hmap
      exact hmap ▸ hx0
  · rw [if_neg hc] at hx
    rcases List.mem_append.mp hx with hx | hx
    · exact hx
    · rw [List.mem_singleton.mp hx] at hne
      exact absurd rfl hne

theorem eq_of_mem_upsert_same_key {u : List Rec} {r x : Rec}
    (hx : x ∈ upsert u r) (hk : keyOf x = keyOf r) : x = r := by
  unfold upsert at hx
  by_cases hc : (u.any fun y => decide (keyOf y = keyOf r)) = true
  · rw [if_pos hc] at hx
    rcases List.mem_map.mp hx with ⟨x0, hx0, hmap⟩
    by_cases hk0 : keyOf x0 = keyOf r
    · rw [if_pos hk0, overwriteNonKey_eq hk0] at hmap
      exact hmap.symm
    · rw [if_neg hk0] at hmap
      rw [← hmap] at hk
      exact absurd hk hk0
  · rw [if_neg hc] at hx
    rcases List.mem_append.mp hx with hx | hx
    · exfalso
      apply hc
      exact List.any_eq_true.mpr ⟨x, hx, by rw [decide_eq_true_eq]; exact hk⟩
    · exact List.mem_singleton.mp hx

theorem mem_of_mem_insert_key_notin {b : List Rec} :
    ∀ {u : List Rec} {x : Rec}, x ∈ insert_rows_safe u b →
      (∀ r ∈ b, keyOf r ≠ keyOf x) → x ∈ u := by
  induction b with
  | nil => intro u x hx _; exact hx
  | cons r b' ih =>
    intro u x hx hne
    have hx' : x ∈ upsert u r :=
      ih hx (fun r' hr' => hne r' (List.mem_cons_of_mem _ hr'))
    exact mem_of_mem_upsert_key_ne hx' (hne r (List.mem_cons_self _ _))

theorem updLast_eq_self_of_mem_insert :
    ∀ (b : List Rec) {u : List Rec} {x : Rec},
      x ∈ insert_rows_safe u b → updLast b x = x := by
  intro b
  induction b with
  | nil => intro u x _; rfl
  | cons r b' ih =>
    intro u x hx
    have hx' : x ∈ insert_rows_safe (upsert u r) b' := hx
    rw [updLast_cons]
    by_cases hk : keyOf x = keyOf r
    · rw [if_pos hk]
      cases hf : findLastKey b' (keyOf r) with
      | some y =>
        have h1 : updLast b' x = x := ih hx'
        unfold updLast at h1 ⊢
        rw [hk] at h1
        rw [hf] at h1 ⊢
        exact h1
      | none =>
        have hnone : ∀ y ∈ b', keyOf y ≠ keyOf r := findLastKey_eq_none_iff.mp hf
        have hxu : x ∈ upsert u r :=
          mem_of_mem_insert_key_notin hx' (fun r' hr' he => hnone r' hr' (he.trans hk))
        have hxr : x = r := eq_of_mem_upsert_same_key hxu hk
        show updLast b' r = x
        unfold updLast
        rw [hf]
        exact hxr.symm
    · rw [if_neg hk]
      exact ih hx'

/-- C4: the upsert of `insert_rows_safe` is idempotent and last-writer-wins.
(1) Applying the same batch to the store twice yields the same final store
content as applying it once (no duplicate rows, fields match the latest
application).  (2) On collision of the composite key (`ifsc_code`,
`branch_name`) the incoming record replaces all non-key fields wholesale:
the incoming record itself ends up in the store, and every stored row
carrying the colliding key equals the incoming record — nothing is merged
field-by-field and no existing value survives over the incoming one. -/
theorem insert_rows_safe_idempotent (s : List Rec) (b : List Rec) :
    insert_rows_safe (insert_rows_safe s b) b = insert_rows_safe s b ∧
    (∀ r x, x ∈ s → keyOf x = keyOf r →
      r ∈ upsert s r ∧ ∀ y ∈ upsert s r, keyOf y = keyOf r → y = r) := by
  constructor
  · have hkeys : ∀ r ∈ b,
        ((insert_rows_safe s b).any fun x => decide (keyOf x = keyOf r)) = true :=
      fun r hr => hasKey_insert_of_mem hr
    rw [insert_eq_map_updLast b _ hkeys]
    conv_rhs => rw [← List.map_id (insert_rows_safe s b)]
    exact List.map_congr_left (fun x hx => updLast_eq_self_of_mem_insert b hx)
  · intro r x hx hk
    have hc : (s.any fun y => decide (keyOf y = keyOf r)) = true :=
      List.any_eq_true.mpr ⟨x, hx, by rw [decide_eq_true_eq]; exact hk⟩
    constructor
    · rw [upsert_eq_replace hc]
      exact List.mem_map.mpr ⟨x, hx, by rw [if_pos hk]⟩
    · intro y hy hky
      exact eq_of_mem_upsert_same_key hy hky

/-- Witness for C4 at a concrete store and batch: applying the batch
`[recA, recB, recA2]` (whose first and third records collide on the key)
twice equals applying it once, and upserting `recA2` into a store holding
`recA` replaces the stored row by `recA2` wholesale. -/
theorem insert_rows_safe_idempotent_witness :
    insert_rows_safe (insert_rows_safe [] [recA, recB, recA2]) [recA, recB, recA2] =
      insert_rows_safe [] [recA, recB, recA2] ∧
    recA2 ∈ upsert [recA] recA2 :=
  ⟨(insert_rows_safe_idempotent [] [recA, recB, recA2]).1,
   ((insert_rows_safe_idempotent [recA] []).2 recA2 recA (by decide) (by decide)).1⟩

end Scrapping
